import Mathlib

/- Shallow embedding of the DCMLab/consonance library
   (src/consonance/consonance.py and src/consonance/optimise_weights.py).

   Modelling conventions:
   * MIDI pitches and intervals are integers (ℤ); Python `%` on ints agrees
     with Int.emod for a positive modulus.
   * numpy float weights, ratings and scores are rationals (ℚ); the float
     value nan produced by 0.0/0 is the explicit constructor Score.nan.
   * Python None entries of weight tables are Option.none.
   * Python exceptions are the error side of Except PyErr.
   * Python list.sort and sorted are a stable ascending sort (sortBy below);
     Python list comparison is lexicographic (listLeB below).
-/

namespace Consonance

/-- Insertion step of a stable insertion sort: place x before the first
element it compares le to. -/
def insertSorted (le : α → α → Bool) (x : α) : List α → List α
  | [] => [x]
  | y :: ys => if le x y then x :: y :: ys else y :: insertSorted le x ys

/-- Stable ascending sort by a boolean comparison; models Python list.sort /
sorted (both stable), and numpy's stable small-array argsort. -/
def sortBy (le : α → α → Bool) : List α → List α
  | [] => []
  | x :: xs => insertSorted le x (sortBy le xs)

theorem perm_insertSorted (le : α → α → Bool) (x : α) (l : List α) :
    List.Perm (insertSorted le x l) (x :: l) := by
  induction l with
  | nil => simp [insertSorted]
  | cons y ys ih =>
    simp only [insertSorted]
    split
    · exact List.Perm.refl _
    · exact ((ih.cons y).trans (List.Perm.swap x y ys))

theorem perm_sortBy (le : α → α → Bool) (l : List α) : List.Perm (sortBy le l) l := by
  induction l with
  | nil => simp [sortBy]
  | cons x xs ih => exact (perm_insertSorted le x (sortBy le xs)).trans (ih.cons x)

theorem mem_sortBy (le : α → α → Bool) (l : List α) (a : α) :
    a ∈ sortBy le l ↔ a ∈ l := (perm_sortBy le l).mem_iff

theorem length_sortBy (le : α → α → Bool) (l : List α) :
    (sortBy le l).length = l.length := (perm_sortBy le l).length_eq

/-- Sortedness with respect to a boolean comparison. -/
def SortedB (le : α → α → Bool) (l : List α) : Prop :=
  l.Pairwise (fun a b => le a b = true)

theorem sortedB_insertSorted (le : α → α → Bool)
    (htot : ∀ a b, le a b = false → le b a = true)
    (htrans : ∀ a b c, le a b = true → le b c = true → le a c = true)
    (x : α) (l : List α) (hl : SortedB le l) : SortedB le (insertSorted le x l) := by
  induction l with
  | nil => simp [insertSorted, SortedB]
  | cons y ys ih =>
    rw [SortedB, List.pairwise_cons] at hl
    simp only [insertSorted]
    by_cases hxy : le x y = true
    · rw [if_pos hxy, SortedB, List.pairwise_cons]
      refine ⟨?_, List.Pairwise.cons hl.1 hl.2⟩
      intro b hb
      rcases List.mem_cons.mp hb with hb | hb
      · exact hb ▸ hxy
      · exact htrans x y b hxy (hl.1 b hb)
    · rw [if_neg hxy, SortedB, List.pairwise_cons]
      refine ⟨?_, ih hl.2⟩
      intro b hb
      rw [(perm_insertSorted le x ys).mem_iff] at hb
      rcases List.mem_cons.mp hb with hb | hb
      · exact hb ▸ htot x y (Bool.eq_false_iff.mpr hxy)
      · exact hl.1 b hb

theorem sortedB_sortBy (le : α → α → Bool)
    (htot : ∀ a b, le a b = false → le b a = true)
    (htrans : ∀ a b c, le a b = true → le b c = true → le a c = true)
    (l : List α) : SortedB le (sortBy le l) := by
  induction l with
  | nil => simp [sortBy, SortedB]
  | cons x xs ih => exact sortedB_insertSorted le htot htrans x _ ih

theorem eq_of_perm_of_sortedB (le : α → α → Bool)
    (hanti : ∀ a b, le a b = true → le b a = true → a = b)
    {l₁ l₂ : List α} (hp : List.Perm l₁ l₂) (h₁ : SortedB le l₁) (h₂ : SortedB le l₂) :
    l₁ = l₂ :=
  @List.eq_of_perm_of_sorted _ (fun a b => le a b = true) ⟨hanti⟩ _ _ hp h₁ h₂

/-- Boolean comparison on ℕ. -/
def natLeB (a b : ℕ) : Bool := decide (a ≤ b)

/-- Boolean comparison on ℤ. -/
def intLeB (a b : ℤ) : Bool := decide (a ≤ b)

/-- Descending-by-length comparison, modelling sort(key=len, reverse=True). -/
def lenGeB (a b : List α) : Bool := decide (b.length ≤ a.length)

/-- Lexicographic comparison of lists as Python compares lists: elementwise,
with a strict prefix ordered first. -/
def listLeB (le : α → α → Bool) : List α → List α → Bool
  | [], _ => true
  | _ :: _, [] => false
  | x :: xs, y :: ys =>
    if le x y then (if le y x then listLeB le xs ys else true) else false

theorem listLeB_total (le : α → α → Bool)
    (htot : ∀ a b, le a b = false → le b a = true) :
    ∀ a b : List α, listLeB le a b = false → listLeB le b a = true := by
  intro a
  induction a with
  | nil => intro b h; simp [listLeB] at h
  | cons x xs ih =>
    intro b h
    cases b with
    | nil => simp [listLeB]
    | cons y ys =>
      simp only [listLeB] at h ⊢
      by_cases hxy : le x y = true
      · rw [if_pos hxy] at h
        by_cases hyx : le y x = true
        · rw [if_pos hyx] at h
          rw [if_pos hyx, if_pos hxy]
          exact ih ys h
        · rw [if_neg hyx] at h; exact absurd h (by simp)
      · have hyx := htot x y (Bool.eq_false_iff.mpr hxy)
        rw [if_pos hyx, if_neg hxy]

theorem listLeB_trans (le : α → α → Bool)
    (htrans : ∀ a b c, le a b = true → le b c = true → le a c = true) :
    ∀ a b c : List α, listLeB le a b = true → listLeB le b c = true →
      listLeB le a c = true := by
  intro a
  induction a with
  | nil => intro b c _ _; simp [listLeB]
  | cons x xs ih =>
    intro b c hab hbc
    cases b with
    | nil => simp [listLeB] at hab
    | cons y ys =>
      cases c with
      | nil => simp [listLeB] at hbc
      | cons z zs =>
        simp only [listLeB] at hab hbc ⊢
        by_cases hxy : le x y = true
        · rw [if_pos hxy] at hab
          by_cases hyz : le y z = true
          · rw [if_pos hyz] at hbc
            have hxz : le x z = true := htrans x y z hxy hyz
            rw [if_pos hxz]
            by_cases hzx : le z x = true
            · rw [if_pos hzx]
              by_cases hyx : le y x = true
              · rw [if_pos hyx] at hab
                by_cases hzy : le z y = true
                · rw [if_pos hzy] at hbc
                  exact ih ys zs hab hbc
                · have : le z y = true := htrans z x y hzx hxy
                  exact absurd this (Bool.eq_false_iff.mpr hzy ▸ by simp [hzy])
              · have : le y x = true := htrans y z x hyz hzx
                exact absurd this hyx
            · rw [if_neg hzx]
          · rw [if_neg hyz] at hbc; exact absurd hbc (by simp)
        · rw [if_neg hxy] at hab; exact absurd hab (by simp)

theorem listLeB_antisymm (le : α → α → Bool)
    (hanti : ∀ a b, le a b = true → le b a = true → a = b) :
    ∀ a b : List α, listLeB le a b = true → listLeB le b a = true → a = b := by
  intro a
  induction a with
  | nil =>
    intro b _ hba
    cases b with
    | nil => rfl
    | cons y ys => simp [listLeB] at hba
  | cons x xs ih =>
    intro b hab hba
    cases b with
    | nil => simp [listLeB] at hab
    | cons y ys =>
      simp only [listLeB] at hab hba
      by_cases hxy : le x y = true
      · rw [if_pos hxy] at hab
        by_cases hyx : le y x = true
        · rw [if_pos hyx] at hab
          rw [if_pos hyx, if_pos hxy] at hba
          have hx := hanti x y hxy hyx
          have ht := ih ys hab hba
          rw [hx, ht]
        · rw [if_neg hyx] at hab
          rw [if_neg hyx] at hba
          exact absurd hba (by simp)
      · rw [if_neg hxy] at hab; exact absurd hab (by simp)

theorem natLeB_total : ∀ a b : ℕ, natLeB a b = false → natLeB b a = true := by
  intro a b h; simp [natLeB] at h ⊢; omega

theorem natLeB_trans : ∀ a b c : ℕ, natLeB a b = true → natLeB b c = true →
    natLeB a c = true := by
  intro a b c h1 h2; simp [natLeB] at h1 h2 ⊢; omega

theorem natLeB_antisymm : ∀ a b : ℕ, natLeB a b = true → natLeB b a = true →
    a = b := by
  intro a b h1 h2; simp [natLeB] at h1 h2; omega

theorem intLeB_total : ∀ a b : ℤ, intLeB a b = false → intLeB b a = true := by
  intro a b h; simp [intLeB] at h ⊢; omega

theorem intLeB_trans : ∀ a b c : ℤ, intLeB a b = true → intLeB b c = true →
    intLeB a c = true := by
  intro a b c h1 h2; simp [intLeB] at h1 h2 ⊢; omega

theorem intLeB_antisymm : ∀ a b : ℤ, intLeB a b = true → intLeB b a = true →
    a = b := by
  intro a b h1 h2; simp [intLeB] at h1 h2; omega

/-- All k-element combinations of a list, in itertools.combinations order. -/
def combinations : ℕ → List α → List (List α)
  | 0, _ => [[]]
  | _ + 1, [] => []
  | k + 1, x :: xs => (combinations k xs).map (x :: ·) ++ combinations (k + 1) xs

/-- Ordered pairs produced by itertools.combinations(pitches, 2). -/
def pairsOf : List α → List (α × α)
  | [] => []
  | p :: ps => ps.map (fun q => (p, q)) ++ pairsOf ps

/-- The label range range(1, 13) used for interval histograms. -/
def labels12 : List ℤ := [1, 2, 3, 4, 5, 6, 7, 8, 9, 10, 11, 12]

/-- The label range range(7) used for interval-class histograms. -/
def labels7 : List ℤ := [0, 1, 2, 3, 4, 5, 6]

/-- Python get_octave_intervals: all pairwise differences p2 - p1 over
combinations(pitches, 2), reduced modulo 12, a remainder of 0 replaced by 12,
then sorted ascending. -/
def get_octave_intervals (pitches : List ℤ) : List ℤ :=
  let rawIntervals := (pairsOf pitches).map (fun pq => pq.2 - pq.1)
  let octIntervals := rawIntervals.map (fun ivl => ivl % 12)
  let octReplaced := octIntervals.map (fun ivl => if ivl = 0 then 12 else ivl)
  sortBy intLeB octReplaced

/-- Python interval_class. -/
def interval_class (interval : ℤ) : ℤ := min interval (12 - interval)

/-- Increment one slot of a histogram, as counts[ix] += 1. -/
def incrAt (counts : List ℕ) (i : ℕ) : List ℕ := counts.set i (counts.getD i 0 + 1)

/-- Python count loop: walk the values, incrementing slot items.index(x); a
value absent from items raises ValueError, modelled as none. -/
def count_aux (items : List ℤ) : List ℤ → List ℕ → Option (List ℕ)
  | [], counts => some counts
  | x :: xs, counts =>
    if x ∈ items then count_aux items xs (incrAt counts (items.indexOf x))
    else none

/-- Python count: histogram of lst against the ordered label list items,
starting from np.zeros(len(items)). -/
def count (lst : List ℤ) (items : List ℤ) : Option (List ℕ) :=
  count_aux items lst (List.replicate items.length 0)

/-- Python exclusion_combinations: the empty list plus every combination of
each positive size, each combination sorted, and the whole list of
combinations sorted by Python list comparison. -/
def exclusionCombinations (le : α → α → Bool) (exclusionIxs : List α) :
    List (List α) :=
  sortBy (listLeB le)
    ([[]] ++ (List.range exclusionIxs.length).flatMap
      (fun i => (combinations (i + 1) exclusionIxs).map (sortBy le)))

theorem length_incrAt (l : List ℕ) (i : ℕ) : (incrAt l i).length = l.length := by
  simp [incrAt]

theorem incrAt_map_eq (items : List ℤ) (hnd : items.Nodup) (f : ℤ → ℕ) (x : ℤ)
    (hx : x ∈ items) :
    incrAt (items.map f) (items.indexOf x) =
      items.map (fun it => if it = x then f it + 1 else f it) := by
  have hidx : items.indexOf x < items.length := List.indexOf_lt_length.mpr hx
  apply List.ext_getElem
  · simp [incrAt]
  · intro i h1 h2
    simp only [incrAt]
    rw [List.getElem_set]
    by_cases hcase : items.indexOf x = i
    · subst hcase
      rw [if_pos rfl]
      rw [List.getD_eq_getElem _ _ (by simpa using hidx), List.getElem_map,
        List.getElem_map, List.getElem_indexOf hidx, if_pos rfl]
    · rw [if_neg hcase]
      have hlen : i < items.length := by simpa using h2
      rw [List.getElem_map, List.getElem_map]
      have hne : items[i] ≠ x := by
        intro he
        apply hcase
        have : items[items.indexOf x] = items[i] := by
          rw [List.getElem_indexOf hidx, he]
        exact (List.Nodup.getElem_inj_iff hnd).mp this
      rw [if_neg hne]

theorem count_aux_char (items : List ℤ) (hnd : items.Nodup) :
    ∀ (lst : List ℤ) (f : ℤ → ℕ), (∀ x ∈ lst, x ∈ items) →
      count_aux items lst (items.map f) =
        some (items.map (fun it => f it + lst.count it)) := by
  intro lst
  induction lst with
  | nil => intro f _; simp [count_aux]
  | cons x xs ih =>
    intro f hmem
    have hx : x ∈ items := hmem x (List.mem_cons_self x xs)
    simp only [count_aux, if_pos hx]
    rw [incrAt_map_eq items hnd f x hx,
      ih _ (fun y hy => hmem y (List.mem_cons_of_mem x hy))]
    congr 1
    apply List.map_congr_left
    intro it hit
    by_cases h : it = x
    · subst h; simp [List.count_cons]; omega
    · simp [List.count_cons, h, Ne.symm h]

theorem count_char (lst items : List ℤ) (hnd : items.Nodup)
    (hmem : ∀ x ∈ lst, x ∈ items) :
    count lst items = some (items.map (fun it => lst.count it)) := by
  have h0 : List.replicate items.length (0 : ℕ) = items.map (fun _ => 0) := by
    simp
  rw [count, h0, count_aux_char items hnd lst (fun _ => 0) hmem]
  simp

theorem count_aux_length (items : List ℤ) :
    ∀ (lst : List ℤ) (counts h : List ℕ), count_aux items lst counts = some h →
      h.length = counts.length := by
  intro lst
  induction lst with
  | nil => intro counts h hh; simp [count_aux] at hh; rw [hh]
  | cons x xs ih =>
    intro counts h hh
    simp only [count_aux] at hh
    by_cases hx : x ∈ items
    · rw [if_pos hx] at hh
      rw [ih _ _ hh, length_incrAt]
    · rw [if_neg hx] at hh; cases hh

theorem count_length (lst items : List ℤ) (h : List ℕ)
    (hh : count lst items = some h) : h.length = items.length := by
  have := count_aux_length items lst _ h hh
  simpa using this

theorem count_aux_mem (items : List ℤ) :
    ∀ (lst : List ℤ) (counts h : List ℕ), count_aux items lst counts = some h →
      ∀ x ∈ lst, x ∈ items := by
  intro lst
  induction lst with
  | nil => intro _ _ _ x hx; cases hx
  | cons y ys ih =>
    intro counts h hh x hx
    simp only [count_aux] at hh
    by_cases hy : y ∈ items
    · rw [if_pos hy] at hh
      rcases List.mem_cons.mp hx with h1 | h1
      · exact h1 ▸ hy
      · exact ih _ _ hh x h1
    · rw [if_neg hy] at hh; cases hh

theorem sum_map_add (l : List α) (f g : α → ℕ) :
    (l.map (fun a => f a + g a)).sum = (l.map f).sum + (l.map g).sum := by
  induction l with
  | nil => simp
  | cons x xs ih => simp [ih]; omega

theorem sum_indicator :
    ∀ (items : List ℤ), items.Nodup → ∀ x ∈ items,
      (items.map (fun it => if it = x then (1 : ℕ) else 0)).sum = 1 := by
  intro items
  induction items with
  | nil => intro _ x hx; cases hx
  | cons y ys ih =>
    intro hnd x hx
    rcases List.mem_cons.mp hx with h | h
    · subst h
      simp only [List.map_cons, List.sum_cons, if_pos rfl]
      have hz : ∀ it ∈ ys, (if it = x then (1 : ℕ) else 0) = 0 := by
        intro it hit
        have : it ≠ x := fun he => (List.nodup_cons.mp hnd).1 (he ▸ hit)
        simp [this]
      rw [List.map_congr_left hz]
      simp
    · have hynx : y ≠ x := fun he => (List.nodup_cons.mp hnd).1 (he ▸ h)
      simp only [List.map_cons, List.sum_cons, if_neg hynx]
      rw [ih (List.nodup_cons.mp hnd).2 x h]

theorem sum_counts (items : List ℤ) (hnd : items.Nodup) :
    ∀ lst : List ℤ, (∀ x ∈ lst, x ∈ items) →
      (items.map (fun it => lst.count it)).sum = lst.length := by
  intro lst
  induction lst with
  | nil => simp
  | cons x xs ih =>
    intro hmem
    have hstep : items.map (fun it => (x :: xs).count it) =
        items.map (fun it => xs.count it + if it = x then 1 else 0) := by
      apply List.map_congr_left
      intro it _
      by_cases h : it = x
      · subst h; simp [List.count_cons]
      · simp [List.count_cons, h, Ne.symm h]
    rw [hstep, sum_map_add, ih (fun y hy => hmem y (List.mem_cons_of_mem x hy)),
      sum_indicator items hnd x (hmem x (List.mem_cons_self x xs))]
    simp

theorem length_pairsOf (l : List α) : (pairsOf l).length = l.length.choose 2 := by
  induction l with
  | nil => simp [pairsOf]
  | cons p ps ih =>
    simp only [pairsOf, List.length_append, List.length_map, ih, List.length_cons,
      Nat.choose_succ_succ, Nat.choose_one_right]

theorem length_octave_intervals (pitches : List ℤ) :
    (get_octave_intervals pitches).length = pitches.length.choose 2 := by
  simp [get_octave_intervals, length_sortBy, length_pairsOf]

theorem octave_intervals_bounds (pitches : List ℤ) :
    ∀ ivl ∈ get_octave_intervals pitches, 1 ≤ ivl ∧ ivl ≤ 12 := by
  intro ivl hm
  simp only [get_octave_intervals, mem_sortBy, List.mem_map, List.map_map] at hm
  obtain ⟨pq, hpq, heq⟩ := hm
  have h0 : 0 ≤ (pq.2 - pq.1) % 12 := Int.emod_nonneg _ (by norm_num)
  have h12 : (pq.2 - pq.1) % 12 < 12 := Int.emod_lt_of_pos _ (by norm_num)
  simp only [Function.comp] at heq
  split_ifs at heq with hz
  · omega
  · omega

theorem mem_labels12_of_bounds (x : ℤ) (h1 : 1 ≤ x) (h2 : x ≤ 12) :
    x ∈ labels12 := by
  simp only [labels12, List.mem_cons, List.not_mem_nil, or_false]
  omega

theorem nodup_labels12 : labels12.Nodup := by decide

theorem nodup_labels7 : labels7.Nodup := by decide

/-- Python exceptions raised by the library, by raise site. -/
inductive PyErr where
  | emptyWeights
  | weightsLenMismatch
  | exclusionsIncomplete
  | weightsLength
  | resolveNone
  | unboundScore
  | labelIndexError
  | histIndexError
  | batchMismatch
  | singular
  | emptyBatch
  deriving DecidableEq

deriving instance DecidableEq for Except

/-- Value returned by a scorer: a rational, or the float nan that numpy
produces for 0.0/0. -/
inductive Score where
  | num (q : ℚ)
  | nan
  deriving DecidableEq

/-- Tagged weight argument: a flat table, or a piecewise list of tables whose
null entries are Option.none (source dispatches on type(weights[0]) == list). -/
inductive WeightsSpec where
  | flat (ws : List ℚ)
  | piecewise (lsts : List (List (Option ℚ)))

/-- np.inner on equal-length float vectors. -/
def dotQ (u v : List ℚ) : ℚ := ((u.zip v).map (fun p => p.1 * p.2)).sum

/-- Exclusion signature of one weight table: the sorted positions of its
null entries, as sorted([i for i, w in enumerate(weights) if w == None]). -/
def noneIxs (weights : List (Option ℚ)) : List ℕ :=
  sortBy natLeB ((weights.enum.filter (fun p => decide (p.2 = none))).map Prod.fst)

/-- Order-preserving deduplicating union of the signature lists, as the ixs
accumulation loop in check_weight_exclusions. -/
def orderedUnion (lsts : List (List ℕ)) : List ℕ :=
  lsts.foldl (fun acc l => l.foldl (fun a i => if i ∈ a then a else a ++ [i]) acc) []

/-- Python check_weight_exclusions: all tables must have the same length, and
the sorted list of exclusion signatures must equal the sorted powerset of the
union of all null positions. An empty list raises IndexError at
weights_lsts[0]. -/
def checkWeightExclusions (weightsLsts : List (List (Option ℚ))) :
    Except PyErr Unit :=
  match weightsLsts with
  | [] => .error .emptyWeights
  | w :: rest =>
    if rest.all (fun l => l.length == w.length) then
      let lstIxs := sortBy (listLeB natLeB) ((w :: rest).map noneIxs)
      let ixs := orderedUnion lstIxs
      if lstIxs = exclusionCombinations natLeB ixs then .ok ()
      else .error .exclusionsIncomplete
    else .error .weightsLenMismatch

/-- Replace null weights by 0, as [0 if x is None else x for x in lst]. -/
def resolveNulls (weights : List (Option ℚ)) : List ℚ :=
  weights.map (fun w => w.getD 0)

/-- Python not any(counts[j] > 0 for j in sig): any() consumes the
generator lazily, returning False for the table at the first positive count
and stopping, so counts[j] for a null position j beyond the histogram raises
IndexError only when that j is reached. -/
def sigMatches (counts : List ℕ) : List ℕ → Except PyErr Bool
  | [] => .ok true
  | j :: js =>
    if j < counts.length then
      if 0 < counts.getD j 0 then .ok false
      else sigMatches counts js
    else .error .histIndexError

/-- Iteration order of get_inclusion_weights: indices of the candidate
tables in descending order of signature size,
np.flip(np.argsort(lengths)) rendered as the reverse of a stable ascending
argsort. -/
def resolverOrder (n : ℕ) (sigs : List (List ℕ)) : List ℕ :=
  (sortBy (fun i j => natLeB ((sigs.getD i []).length) ((sigs.getD j []).length))
    (List.range n)).reverse

/-- The for-loop of get_inclusion_weights: return the first candidate all of
whose excluded labels have zero count; an IndexError while reading the
histogram aborts the whole loop; falling through returns Python None. -/
def resolveLoop (counts : List ℕ) (sigs : List (List ℕ))
    (weightsLsts : List (List (Option ℚ))) :
    List ℕ → Except PyErr (Option (List ℚ))
  | [] => .ok none
  | i :: rest =>
    match sigMatches counts (sigs.getD i []) with
    | .error e => .error e
    | .ok true => .ok (some (resolveNulls (weightsLsts.getD i [])))
    | .ok false => resolveLoop counts sigs weightsLsts rest

/-- Python get_inclusion_weights: try the candidate tables in descending
order of signature size and return the first whose excluded labels all have
zero count, with nulls replaced by 0; reading the histogram out of range
raises IndexError; falling through returns Python None. -/
def get_inclusion_weights (counts : List ℕ)
    (weightsLsts : List (List (Option ℚ))) : Except PyErr (Option (List ℚ)) :=
  resolveLoop counts (weightsLsts.map noneIxs) weightsLsts
    (resolverOrder weightsLsts.length (weightsLsts.map noneIxs))

/-- Python interval_consonance: histogram of octave intervals against labels
1..12, optional piecewise-weight resolution, length check, then aggregation.
With an unrecognised agg_method the score variable is never bound
(UnboundLocalError); with no intervals the "type" branch divides the zero
histogram by zero, which numpy turns into nan, not an exception. -/
def interval_consonance (pitches : List ℤ) (weights : WeightsSpec)
    (aggMethod : String) : Except PyErr Score :=
  let intervals := get_octave_intervals pitches
  match count intervals labels12 with
  | none => .error .labelIndexError
  | some counts =>
    let wsE : Except PyErr (List ℚ) :=
      match weights with
      | .flat ws => .ok ws
      | .piecewise lsts =>
        match checkWeightExclusions lsts with
        | .error e => .error e
        | .ok _ =>
          match get_inclusion_weights counts lsts with
          | .error e => .error e
          | .ok (some ws) => .ok ws
          | .ok none => .error .resolveNone
    match wsE with
    | .error e => .error e
    | .ok ws =>
      if ws.length ≠ 12 then .error .weightsLength
      else if aggMethod = "sum" then
        .ok (.num (dotQ (counts.map (fun c => (Nat.cast c : ℚ))) ws))
      else if aggMethod = "type" then
        if intervals.length = 0 then .ok .nan
        else .ok (.num (dotQ
          (counts.map (fun c => (Nat.cast c : ℚ) / (intervals.length : ℚ))) ws))
      else .error .unboundScore

/-- Python interval_class_consonance: as interval_consonance but on interval
classes against labels 0..6 and weight length 7. -/
def interval_class_consonance (pitches : List ℤ) (weights : WeightsSpec)
    (aggMethod : String) : Except PyErr Score :=
  let intervals := get_octave_intervals pitches
  let intervalClasses := intervals.map interval_class
  match count intervalClasses labels7 with
  | none => .error .labelIndexError
  | some counts =>
    let wsE : Except PyErr (List ℚ) :=
      match weights with
      | .flat ws => .ok ws
      | .piecewise lsts =>
        match checkWeightExclusions lsts with
        | .error e => .error e
        | .ok _ =>
          match get_inclusion_weights counts lsts with
          | .error e => .error e
          | .ok (some ws) => .ok ws
          | .ok none => .error .resolveNone
    match wsE with
    | .error e => .error e
    | .ok ws =>
      if ws.length ≠ 7 then .error .weightsLength
      else if aggMethod = "sum" then
        .ok (.num (dotQ (counts.map (fun c => (Nat.cast c : ℚ))) ws))
      else if aggMethod = "type" then
        if intervals.length = 0 then .ok .nan
        else .ok (.num (dotQ
          (counts.map (fun c => (Nat.cast c : ℚ) / (intervals.length : ℚ))) ws))
      else .error .unboundScore

theorem dotQ_zero_left : ∀ u v : List ℚ, (∀ x ∈ u, x = 0) → dotQ u v = 0 := by
  intro u
  induction u with
  | nil => intro v _; simp [dotQ]
  | cons x xs ih =>
    intro v hu
    cases v with
    | nil => simp [dotQ]
    | cons y ys =>
      have hx : x = 0 := hu x (List.mem_cons_self x xs)
      have : dotQ (x :: xs) (y :: ys) = x * y + dotQ xs ys := by
        simp [dotQ, List.zip]
      rw [this, hx, zero_mul, zero_add]
      exact ih ys (fun z hz => hu z (List.mem_cons_of_mem x hz))

/-- C1: for every pitch list with at least two pitches, counting the octave
intervals against the label range 1..12 succeeds, the histogram entries sum
to C(n, 2), and every pairwise octave-reduced interval lies in [1, 12]. -/
theorem interval_histogram_complete (pitches : List ℤ)
    (hn : 2 ≤ pitches.length) :
    ∃ h, count (get_octave_intervals pitches) labels12 = some h ∧
      h.sum = pitches.length.choose 2 ∧
      ∀ ivl ∈ get_octave_intervals pitches, 1 ≤ ivl ∧ ivl ≤ 12 := by
  have hb := octave_intervals_bounds pitches
  have hmem : ∀ x ∈ get_octave_intervals pitches, x ∈ labels12 := fun x hx =>
    mem_labels12_of_bounds x (hb x hx).1 (hb x hx).2
  refine ⟨_, count_char _ _ nodup_labels12 hmem, ?_, hb⟩
  rw [sum_counts labels12 nodup_labels12 _ hmem, length_octave_intervals]

theorem interval_histogram_complete_witness :
    2 ≤ ([60, 64, 67] : List ℤ).length ∧
      ∃ h, count (get_octave_intervals [60, 64, 67]) labels12 = some h ∧
        h.sum = ([60, 64, 67] : List ℤ).length.choose 2 ∧
        ∀ ivl ∈ get_octave_intervals [60, 64, 67], 1 ≤ ivl ∧ ivl ≤ 12 :=
  ⟨by decide, interval_histogram_complete [60, 64, 67] (by decide)⟩

/-- C7: interval_class satisfies interval_class k = interval_class (12 - k)
for k in [1, 11], interval_class 12 = 0, and its value lies in [0, 6] for
inputs in [1, 12]. -/
theorem interval_class_properties :
    (∀ k : ℤ, 1 ≤ k → k ≤ 11 → interval_class k = interval_class (12 - k)) ∧
      interval_class 12 = 0 ∧
      (∀ k : ℤ, 1 ≤ k → k ≤ 12 → 0 ≤ interval_class k ∧ interval_class k ≤ 6) := by
  refine ⟨?_, by decide, ?_⟩
  · intro k _ _
    simp only [interval_class]
    have h12 : (12 : ℤ) - (12 - k) = k := by ring
    rw [h12, min_comm]
  · intro k h1 h2
    simp only [interval_class]
    constructor
    · exact le_min (by omega) (by omega)
    · rcases le_total k (12 - k) with h | h
      · calc min k (12 - k) ≤ k := min_le_left _ _
          _ ≤ 6 := by omega
      · calc min k (12 - k) ≤ 12 - k := min_le_right _ _
          _ ≤ 6 := by omega

theorem interval_class_properties_witness :
    interval_class 5 = interval_class 7 ∧
      0 ≤ interval_class 11 ∧ interval_class 11 ≤ 6 :=
  ⟨interval_class_properties.1 5 (by decide) (by decide),
   (interval_class_properties.2.2 11 (by decide) (by decide)).1,
   (interval_class_properties.2.2 11 (by decide) (by decide)).2⟩

/-- C6 counterexample: Python list.sort orders the powerset of [3, 5]
lexicographically, placing [3, 5] before [5], so the claimed output
[[], [3], [5], [3, 5]] is not what the code returns. -/
theorem exclusion_combinations_pair_cex :
    exclusionCombinations intLeB [3, 5] ≠ [[], [3], [5], [3, 5]] := by decide

/-- C6 amended: for distinct labels a < b, exclusion_combinations([a, b])
returns every subset of [a, b] including the empty set, each subset sorted,
with the whole list in lexicographic order: [[], [a], [a, b], [b]]. -/
theorem exclusion_combinations_pair (a b : ℤ) (hab : a < b) :
    exclusionCombinations intLeB [a, b] = [[], [a], [a, b], [b]] := by
  have hab' : intLeB a b = true := by simp [intLeB]; omega
  have hba' : intLeB b a = false := by simp [intLeB]; omega
  have haa : intLeB a a = true := by simp [intLeB]
  have hbb : intLeB b b = true := by simp [intLeB]
  simp [exclusionCombinations, combinations, sortBy, insertSorted, listLeB,
    List.range_succ, hab', hba', haa, hbb]

theorem exclusion_combinations_pair_witness :
    exclusionCombinations intLeB [3, 5] = [[], [3], [3, 5], [5]] :=
  exclusion_combinations_pair 3 5 (by decide)

/-- C5 counterexample: the octave intervals of the major triad [60, 64, 67]
are [3, 4, 7] (67 - 60 = 7), not the claimed [3, 4, 5]. -/
theorem major_triad_intervals_cex :
    get_octave_intervals [60, 64, 67] ≠ [3, 4, 5] := by decide

/-- C5 amended: the octave intervals of [60, 64, 67] are [3, 4, 7] sorted
ascending, and with weight 1 at the position of interval 4 and 0 elsewhere,
interval_consonance with agg_method "type" returns 1/3. -/
theorem major_triad_score :
    get_octave_intervals [60, 64, 67] = [3, 4, 7] ∧
      interval_consonance [60, 64, 67]
        (.flat [0, 0, 0, 1, 0, 0, 0, 0, 0, 0, 0, 0]) "type" =
        .ok (.num (1 / 3)) := by
  refine ⟨by decide, ?_⟩
  norm_num [interval_consonance, get_octave_intervals, pairsOf, sortBy,
    insertSorted, intLeB, count, count_aux, incrAt, labels12, dotQ,
    List.replicate, List.set, List.flatMap, List.zip, List.zipWith, List.sum]
  decide

/-- C2 counterexample: for pitches = [60] interval_consonance raises nothing;
with agg_method "type" it returns the nan produced by dividing the zero
histogram by zero pairs. -/
theorem insufficient_pitches_cex :
    interval_consonance [60] (.flat [0, 0, 0, 0, 0, 0, 0, 0, 0, 0, 0, 0])
      "type" = .ok .nan := by rfl

/-- C2 amended: with fewer than two pitches and a flat length-12 weight
table, interval_consonance does not raise: there are no pairs, the histogram
is all zeros, the "type" branch divides by zero giving nan, and the "sum"
branch returns 0. No InsufficientPitches error exists in the code. -/
theorem insufficient_pitches_behaviour (pitches : List ℤ)
    (hn : pitches.length < 2) (ws : List ℚ) (hw : ws.length = 12) :
    interval_consonance pitches (.flat ws) "type" = .ok .nan ∧
      interval_consonance pitches (.flat ws) "sum" = .ok (.num 0) := by
  have hlen : (get_octave_intervals pitches).length = 0 := by
    rw [length_octave_intervals]
    have : pitches.length = 0 ∨ pitches.length = 1 := by omega
    rcases this with h | h <;> simp [h, Nat.choose]
  have hiv : get_octave_intervals pitches = [] := List.length_eq_zero.mp hlen
  have hdot : dotQ [0, 0, 0, 0, 0, 0, 0, 0, 0, 0, 0, 0] ws = 0 :=
    dotQ_zero_left _ ws (by intro x hx; simp at hx; exact hx)
  constructor
  · simp [interval_consonance, hiv, count, count_aux, hw]
  · simp only [interval_consonance, hiv, count, count_aux, hw]
    have h2 : (List.replicate labels12.length (0 : ℕ)).map
        (fun c => (Nat.cast c : ℚ)) = List.replicate 12 (0 : ℚ) := by
      simp [labels12]
    simp [h2, hdot]

theorem insufficient_pitches_behaviour_witness :
    ([60] : List ℤ).length < 2 ∧
      (interval_consonance [60] (.flat (List.replicate 12 0)) "type" =
          .ok .nan ∧
        interval_consonance [60] (.flat (List.replicate 12 0)) "sum" =
          .ok (.num 0)) :=
  ⟨by decide,
    insufficient_pitches_behaviour [60] (by decide) (List.replicate 12 0)
      (by decide)⟩

theorem resolveLoop_ok_some (counts : List ℕ) (sigs : List (List ℕ))
    (weightsLsts : List (List (Option ℚ))) :
    ∀ (ord : List ℕ) (r : List ℚ),
      ord.Pairwise (fun a b => (sigs.getD b []).length ≤ (sigs.getD a []).length) →
      resolveLoop counts sigs weightsLsts ord = .ok (some r) →
      ∃ i ∈ ord, sigMatches counts (sigs.getD i []) = .ok true ∧
        r = resolveNulls (weightsLsts.getD i []) ∧
        ∀ k ∈ ord, sigMatches counts (sigs.getD k []) = .ok true →
          (sigs.getD k []).length ≤ (sigs.getD i []).length := by
  intro ord
  induction ord with
  | nil => intro r _ hl; simp only [resolveLoop] at hl; cases hl
  | cons h t ih =>
    intro r hpw hl
    rw [List.pairwise_cons] at hpw
    simp only [resolveLoop] at hl
    cases hm : sigMatches counts (sigs.getD h []) with
    | error e => rw [hm] at hl; cases hl
    | ok b =>
      rw [hm] at hl
      cases b with
      | true =>
        refine ⟨h, List.mem_cons_self h t, hm, ?_, ?_⟩
        · simpa using (Option.some.inj (Except.ok.inj hl)).symm
        · intro k hk _
          rcases List.mem_cons.mp hk with rfl | hk2
          · exact le_refl _
          · exact hpw.1 k hk2
      | false =>
        obtain ⟨i, hi, hmi, hri, hmax⟩ := ih r hpw.2 hl
        refine ⟨i, List.mem_cons_of_mem h hi, hmi, hri, ?_⟩
        intro k hk hmk
        rcases List.mem_cons.mp hk with rfl | hk2
        · rw [hm] at hmk; cases hmk
        · exact hmax k hk2 hmk

theorem sigMatches_total (counts : List ℕ) :
    ∀ s : List ℕ, (∀ j ∈ s, j < counts.length) →
      ∃ b, sigMatches counts s = .ok b := by
  intro s
  induction s with
  | nil => intro _; exact ⟨true, rfl⟩
  | cons j js ih =>
    intro hb
    have hj : j < counts.length := hb j (List.mem_cons_self j js)
    simp only [sigMatches, if_pos hj]
    by_cases hc : 0 < counts.getD j 0
    · exact ⟨false, by rw [if_pos hc]⟩
    · obtain ⟨b, hbb⟩ := ih (fun k hk => hb k (List.mem_cons_of_mem j hk))
      exact ⟨b, by rw [if_neg hc]; exact hbb⟩

theorem resolveLoop_some_of_mem (counts : List ℕ) (sigs : List (List ℕ))
    (weightsLsts : List (List (Option ℚ))) :
    ∀ ord : List ℕ,
      (∀ i ∈ ord, ∃ b, sigMatches counts (sigs.getD i []) = .ok b) →
      (∃ j ∈ ord, sigMatches counts (sigs.getD j []) = .ok true) →
      ∃ i ∈ ord, resolveLoop counts sigs weightsLsts ord =
        .ok (some (resolveNulls (weightsLsts.getD i []))) := by
  intro ord
  induction ord with
  | nil => intro _ hj; obtain ⟨j, hj, _⟩ := hj; cases hj
  | cons h t ih =>
    intro hnoerr hj
    obtain ⟨b, hb⟩ := hnoerr h (List.mem_cons_self h t)
    cases b with
    | true =>
      exact ⟨h, List.mem_cons_self h t, by simp only [resolveLoop, hb]⟩
    | false =>
      obtain ⟨j, hjm, hjt⟩ := hj
      have hjt2 : j ∈ t := by
        rcases List.mem_cons.mp hjm with rfl | h2
        · rw [hb] at hjt; cases hjt
        · exact h2
      obtain ⟨i, hi, hrl⟩ := ih
        (fun k hk => hnoerr k (List.mem_cons_of_mem h hk)) ⟨j, hjt2, hjt⟩
      exact ⟨i, List.mem_cons_of_mem h hi,
        by simp only [resolveLoop, hb]; exact hrl⟩

theorem mem_resolverOrder (n : ℕ) (sigs : List (List ℕ)) (k : ℕ) :
    k ∈ resolverOrder n sigs ↔ k < n := by
  simp [resolverOrder, mem_sortBy, List.mem_reverse, List.mem_range]

theorem pairwise_resolverOrder (n : ℕ) (sigs : List (List ℕ)) :
    (resolverOrder n sigs).Pairwise
      (fun a b => (sigs.getD b []).length ≤ (sigs.getD a []).length) := by
  have hs := sortedB_sortBy
    (fun i j => natLeB ((sigs.getD i []).length) ((sigs.getD j []).length))
    (fun a b h => by simp [natLeB] at h ⊢; omega)
    (fun a b c h1 h2 => by simp [natLeB] at h1 h2 ⊢; omega)
    (List.range n)
  rw [resolverOrder, List.pairwise_reverse]
  exact hs.imp (fun h => by simpa [natLeB] using h)

theorem getD_map_noneIxs (tables : List (List (Option ℚ))) (k : ℕ)
    (hk : k < tables.length) :
    (tables.map noneIxs).getD k [] = noneIxs (tables.getD k []) := by
  rw [List.getD_eq_getElem _ _ (by simpa using hk),
    List.getD_eq_getElem _ _ hk, List.getElem_map]

/-- C3: when get_inclusion_weights returns a table, the table is one of the
candidates with its nulls replaced by 0, every label of its exclusion
signature has zero count, and its signature is largest among all matching
candidates; and in the two-table instance (one table excluding exactly a
histogram label x with zero count, one excluding nothing) the table
excluding x is selected, whichever order the two tables are given in. -/
theorem inclusion_weights_select_largest :
    (∀ (counts : List ℕ) (tables : List (List (Option ℚ))) (r : List ℚ),
      get_inclusion_weights counts tables = .ok (some r) →
      ∃ i, i < tables.length ∧ r = resolveNulls (tables.getD i []) ∧
        sigMatches counts (noneIxs (tables.getD i [])) = .ok true ∧
        ∀ k, k < tables.length →
          sigMatches counts (noneIxs (tables.getD k [])) = .ok true →
          (noneIxs (tables.getD k [])).length ≤
            (noneIxs (tables.getD i [])).length) ∧
    (∀ (t1 t2 : List (Option ℚ)) (x : ℕ) (counts : List ℕ),
      noneIxs t1 = [x] → noneIxs t2 = [] → x < counts.length →
      counts.getD x 0 = 0 →
      get_inclusion_weights counts [t1, t2] =
        .ok (some (resolveNulls t1)) ∧
      get_inclusion_weights counts [t2, t1] =
        .ok (some (resolveNulls t1))) := by
  constructor
  · intro counts tables r hsome
    simp only [get_inclusion_weights] at hsome
    obtain ⟨i, him, hmi, hri, hmax⟩ := resolveLoop_ok_some counts
      (tables.map noneIxs) tables _ r (pairwise_resolverOrder _ _) hsome
    have hi : i < tables.length := (mem_resolverOrder _ _ i).mp him
    refine ⟨i, hi, hri, ?_, ?_⟩
    · rw [← getD_map_noneIxs tables i hi]; exact hmi
    · intro k hk hmk
      have hkm : k ∈ resolverOrder tables.length (tables.map noneIxs) :=
        (mem_resolverOrder _ _ k).mpr hk
      have := hmax k hkm (by rw [getD_map_noneIxs tables k hk]; exact hmk)
      rw [getD_map_noneIxs tables k hk, getD_map_noneIxs tables i hi] at this
      exact this
  · intro t1 t2 x counts h1 h2 hxlt hx
    have hx2 : counts[x]?.getD 0 = 0 := by
      simpa [List.getD_eq_getElem?_getD] using hx
    have hx3 : counts[x] = 0 := by
      rw [← List.getD_eq_getElem counts 0 hxlt]; exact hx
    constructor
    · simp [get_inclusion_weights, resolveLoop, resolverOrder, sortBy,
        insertSorted, natLeB, sigMatches, h1, h2, hx2, hx3, hxlt,
        List.range_succ]
    · simp [get_inclusion_weights, resolveLoop, resolverOrder, sortBy,
        insertSorted, natLeB, sigMatches, h1, h2, hx2, hx3, hxlt,
        List.range_succ]

theorem inclusion_weights_select_largest_witness :
    get_inclusion_weights [0] [[none], [some 5]] =
        .ok (some (resolveNulls [none])) ∧
      get_inclusion_weights [0] [[some 5], [none]] =
        .ok (some (resolveNulls [none])) :=
  inclusion_weights_select_largest.2 [none] [some 5] 0 [0]
    (by decide) (by decide) (by decide) (by decide)

theorem nil_mem_exclusionCombinations (le : α → α → Bool) (ixs : List α) :
    [] ∈ exclusionCombinations le ixs := by
  simp [exclusionCombinations, mem_sortBy]

/-- Validated pair of length-13 weight tables whose only null position, 12,
lies beyond a 12-slot histogram. -/
def thirteenTables : List (List (Option ℚ)) :=
  [[some 0, some 0, some 0, some 0, some 0, some 0, some 0, some 0, some 0,
    some 0, some 0, some 0, none],
   [some 0, some 0, some 0, some 0, some 0, some 0, some 0, some 0, some 0,
    some 0, some 0, some 0, some 0]]

/-- C9 counterexample: check_weight_exclusions accepts these length-13
tables (equal lengths, signatures [[],[12]] = the powerset of [12]), yet
get_inclusion_weights on a 12-slot histogram returns no table: reading
counts[12] raises IndexError before any table can match. -/
theorem resolver_index_error_cex :
    checkWeightExclusions thirteenTables = .ok () ∧
      get_inclusion_weights (List.replicate 12 0) thirteenTables =
        .error .histIndexError := by
  constructor <;> rfl

/-- C9 amended: once checkWeightExclusions has succeeded, and every null
position lies within the histogram (as in the scorers, which resolve
label-range-sized tables against a label-range-sized histogram),
get_inclusion_weights always selects some candidate table: the table
excluding nothing matches unconditionally, so resolution never falls
through, and the result is a table with all nulls replaced by 0. A null
position beyond the histogram instead raises IndexError at counts[j]. -/
theorem resolution_never_falls_through (counts : List ℕ)
    (tables : List (List (Option ℚ)))
    (hok : checkWeightExclusions tables = .ok ())
    (hbound : ∀ t ∈ tables, ∀ j ∈ noneIxs t, j < counts.length) :
    ∃ i, i < tables.length ∧
      get_inclusion_weights counts tables =
        .ok (some (resolveNulls (tables.getD i []))) := by
  obtain ⟨t, ht, hsig⟩ : ∃ t ∈ tables, noneIxs t = [] := by
    cases tables with
    | nil => simp [checkWeightExclusions] at hok
    | cons w rest =>
      simp only [checkWeightExclusions] at hok
      split_ifs at hok with hlen heq
      · have hnil : [] ∈ sortBy (listLeB natLeB) ((w :: rest).map noneIxs) := by
          rw [heq]
          exact nil_mem_exclusionCombinations _ _
        rw [mem_sortBy] at hnil
        obtain ⟨t, ht, hs⟩ := List.mem_map.mp hnil
        exact ⟨t, ht, hs⟩
  obtain ⟨j, hj, hgt⟩ : ∃ j, j < tables.length ∧ tables.getD j [] = t := by
    obtain ⟨j, hjl, hje⟩ := List.mem_iff_getElem.mp ht
    exact ⟨j, hjl, by rw [List.getD_eq_getElem _ _ hjl]; exact hje⟩
  have hp : sigMatches counts ((tables.map noneIxs).getD j []) = .ok true := by
    rw [getD_map_noneIxs _ _ hj, hgt, hsig]; rfl
  have hnoerr : ∀ i ∈ resolverOrder tables.length (tables.map noneIxs),
      ∃ b, sigMatches counts ((tables.map noneIxs).getD i []) = .ok b := by
    intro i him
    have hi : i < tables.length := (mem_resolverOrder _ _ i).mp him
    rw [getD_map_noneIxs _ _ hi]
    apply sigMatches_total
    intro k hk
    exact hbound (tables.getD i [])
      (by rw [List.getD_eq_getElem _ _ hi]; exact List.getElem_mem hi) k hk
  have hjmem : j ∈ resolverOrder tables.length (tables.map noneIxs) :=
    (mem_resolverOrder _ _ j).mpr hj
  obtain ⟨y, hym, hy⟩ := resolveLoop_some_of_mem counts (tables.map noneIxs)
    tables _ hnoerr ⟨j, hjmem, hp⟩
  have hylt : y < tables.length := (mem_resolverOrder _ _ y).mp hym
  exact ⟨y, hylt, hy⟩

theorem resolution_never_falls_through_witness :
    checkWeightExclusions [[none, some 1], [some 2, some 3]] = .ok () ∧
      (∀ t ∈ ([[none, some 1], [some 2, some 3]] :
          List (List (Option ℚ))), ∀ j ∈ noneIxs t,
        j < ([5, 5] : List ℕ).length) ∧
      ∃ i, i < ([[none, some 1], [some 2, some 3]] :
          List (List (Option ℚ))).length ∧
        get_inclusion_weights [5, 5] [[none, some 1], [some 2, some 3]] =
          .ok (some (resolveNulls
            (([[none, some 1], [some 2, some 3]] :
              List (List (Option ℚ))).getD i []))) :=
  ⟨by rfl, by decide,
    resolution_never_falls_through [5, 5] _ (by rfl) (by decide)⟩

/-- C4: checkWeightExclusions succeeds exactly when all supplied tables have
equal length and the exclusion signatures of the tables are, as a multiset,
exactly the powerset of the union of all null positions — every combination
of excluded labels represented by exactly one table; a missing or duplicated
combination fails. -/
theorem check_weight_exclusions_iff (tables : List (List (Option ℚ))) :
    checkWeightExclusions tables = .ok () ↔
      ((∀ l ∈ tables, l.length = (tables.headD []).length) ∧
        List.Perm (tables.map noneIxs)
          (exclusionCombinations natLeB
            (orderedUnion (sortBy (listLeB natLeB) (tables.map noneIxs))))) := by
  have ltot := listLeB_total natLeB natLeB_total
  have ltrans := listLeB_trans natLeB natLeB_trans
  have lanti := listLeB_antisymm natLeB natLeB_antisymm
  cases tables with
  | nil =>
    simp only [checkWeightExclusions]
    constructor
    · intro h; cases h
    · rintro ⟨-, hperm⟩
      have hl := hperm.length_eq
      simp [exclusionCombinations, sortBy, insertSorted, orderedUnion,
        combinations] at hl
  | cons w rest =>
    simp only [checkWeightExclusions]
    constructor
    · intro hok
      split_ifs at hok with hlen heq
      · refine ⟨?_, ?_⟩
        · intro l hl
          rcases List.mem_cons.mp hl with rfl | hl2
          · rfl
          · have := List.all_eq_true.mp hlen l hl2
            simpa using this
        · exact heq ▸ (perm_sortBy _ _).symm
    · rintro ⟨hlens, hperm⟩
      have hlen : rest.all (fun l => l.length == w.length) = true := by
        rw [List.all_eq_true]
        intro l hl
        simpa using hlens l (List.mem_cons_of_mem w hl)
      rw [if_pos hlen]
      have hsorted1 : SortedB (listLeB natLeB)
          (sortBy (listLeB natLeB) ((w :: rest).map noneIxs)) :=
        sortedB_sortBy _ ltot ltrans _
      have hsorted2 : SortedB (listLeB natLeB)
          (exclusionCombinations natLeB
            (orderedUnion (sortBy (listLeB natLeB) ((w :: rest).map noneIxs)))) := by
        show SortedB (listLeB natLeB) (sortBy (listLeB natLeB) _)
        exact sortedB_sortBy _ ltot ltrans _
      have heq : sortBy (listLeB natLeB) ((w :: rest).map noneIxs) =
          exclusionCombinations natLeB
            (orderedUnion (sortBy (listLeB natLeB) ((w :: rest).map noneIxs))) :=
        eq_of_perm_of_sortedB _ lanti
          ((perm_sortBy _ _).trans hperm) hsorted1 hsorted2
      rw [if_pos heq]

theorem check_weight_exclusions_iff_witness :
    checkWeightExclusions [[none, some 1], [some 2, some 3]] = .ok () ∧
      checkWeightExclusions [[none, some 1], [some 2, none]] ≠ .ok () := by
  constructor
  · exact (check_weight_exclusions_iff _).mpr (by constructor <;> decide)
  · intro h
    have := (check_weight_exclusions_iff _).mp h
    revert this
    decide

/-- C10: for any agg_method other than "sum" and "type", neither
interval_consonance nor interval_class_consonance returns a score: the score
variable is assigned only in the two recognised branches, so every execution
ends in an error (for weight failures, their own errors; otherwise the
unbound score variable). -/
theorem unrecognised_agg_method_fails (pitches : List ℤ) (w : WeightsSpec)
    (agg : String) (hs : agg ≠ "sum") (ht : agg ≠ "type") :
    (∃ e, interval_consonance pitches w agg = .error e) ∧
      (∃ e, interval_class_consonance pitches w agg = .error e) := by
  constructor
  · simp only [interval_consonance]
    split
    · exact ⟨_, rfl⟩
    · split
      · exact ⟨_, rfl⟩
      · split_ifs with h1
        · exact ⟨_, rfl⟩
        · exact ⟨_, rfl⟩
  · simp only [interval_class_consonance]
    split
    · exact ⟨_, rfl⟩
    · split
      · exact ⟨_, rfl⟩
      · split_ifs with h1
        · exact ⟨_, rfl⟩
        · exact ⟨_, rfl⟩

theorem unrecognised_agg_method_fails_witness :
    ("max" : String) ≠ "sum" ∧
      ((∃ e, interval_consonance [60, 64]
          (.flat [0, 0, 0, 0, 0, 0, 0, 0, 0, 0, 0, 0]) "max" = .error e) ∧
        ∃ e, interval_class_consonance [60, 64]
          (.flat [0, 0, 0, 0, 0, 0, 0, 0, 0, 0, 0, 0]) "max" = .error e) :=
  ⟨by decide,
    unrecognised_agg_method_fails [60, 64]
      (.flat [0, 0, 0, 0, 0, 0, 0, 0, 0, 0, 0, 0]) "max"
      (by decide) (by decide)⟩

/-- Sequential effectful map over a list in the Except monad; the first
raised error propagates, as in the Python loops. -/
def mapExcept (f : α → Except PyErr β) : List α → Except PyErr (List β)
  | [] => .ok []
  | x :: xs =>
    match f x, mapExcept f xs with
    | .ok y, .ok ys => .ok (y :: ys)
    | .error e, _ => .error e
    | .ok _, .error e => .error e

/-- Column j of a row-major matrix. -/
def colAt (A : List (List ℚ)) (j : ℕ) : List ℚ := A.map (fun row => row.getD j 0)

/-- Index-wise rendering of np.matmul(np.matrix.transpose(A), A): entry
(p, q) is the inner product of columns p and q of A. -/
def gramAtA (A : List (List ℚ)) (m : ℕ) : List (List ℚ) :=
  (List.range m).map (fun p => (List.range m).map (fun q => dotQ (colAt A p) (colAt A q)))

/-- Index-wise rendering of np.matmul(np.matrix.transpose(A), ratings). -/
def atVec (A : List (List ℚ)) (y : List ℚ) (m : ℕ) : List ℚ :=
  (List.range m).map (fun p => dotQ (colAt A p) y)

/-- Determinant by Laplace expansion along the first row; the fuel argument
equals the row count and makes the recursion structural. -/
def detFuel : ℕ → List (List ℚ) → ℚ
  | _, [] => 1
  | 0, _ :: _ => 1
  | n + 1, r :: rows =>
    ((List.range r.length).map
      (fun k => (-1 : ℚ) ^ k * r.getD k 0 *
        detFuel n (rows.map (fun row => row.eraseIdx k)))).sum

def detL (M : List (List ℚ)) : ℚ := detFuel M.length M

/-- Exact-arithmetic model of np.linalg.inv: fails (LinAlgError) exactly on a
singular matrix, and otherwise returns the adjugate over the determinant. -/
def matInvL (M : List (List ℚ)) : Option (List (List ℚ)) :=
  let d := detL M
  if d = 0 then none
  else some ((List.range M.length).map (fun i => (List.range M.length).map
    (fun j => (-1 : ℚ) ^ (i + j) *
      detL ((M.eraseIdx j).map (fun row => row.eraseIdx i)) / d)))

def matVecL (B : List (List ℚ)) (v : List ℚ) : List ℚ :=
  B.map (fun row => dotQ row v)

/-- One row of the design matrix A for a chord: its histogram over the label
set (raw counts for "sum", proportions for "type"); any other agg_method
leaves the np.zeros row untouched. A chord interval outside the label set
raises in count. The ℚ division models float division; the flow that
matters divides by a positive interval count. -/
def designRow (intervalSet : List ℤ) (aggMethod : String) (ivls : List ℤ) :
    Except PyErr (List ℚ) :=
  match count ivls intervalSet with
  | none => .error .labelIndexError
  | some counts =>
    let countsQ := counts.map (fun c => (Nat.cast c : ℚ))
    if aggMethod = "sum" then .ok countsQ
    else if aggMethod = "type" then
      .ok (countsQ.map (fun c => c / (ivls.length : ℚ)))
    else .ok (List.replicate intervalSet.length 0)

/-- Python optimise_weights: check batch lengths, build the design matrix,
and solve the normal equations weights = inv(AᵗA) Aᵗ ratings; a singular
AᵗA raises np.linalg.LinAlgError. -/
def optimise_weights (intervalsLst : List (List ℤ)) (ratings : List ℚ)
    (intervalSet : List ℤ) (aggMethod : String) : Except PyErr (List ℚ) :=
  if intervalsLst.length ≠ ratings.length then .error .batchMismatch
  else
    match mapExcept (designRow intervalSet aggMethod) intervalsLst with
    | .error e => .error e
    | .ok rows =>
      match matInvL (gramAtA rows intervalSet.length) with
      | none => .error .singular
      | some B => .ok (matVecL B (atVec rows ratings intervalSet.length))

/-- Python include_missing: walk the full label range, consuming one fitted
weight for each label present in the interval set and inserting None for the
others. -/
def include_missing : List ℚ → List ℤ → List ℤ → List (Option ℚ)
  | _, _, [] => []
  | ws, s, i :: rest =>
    if i ∈ s then some (ws.headD 0) :: include_missing ws.tail s rest
    else none :: include_missing ws s rest

/-- Python set(...) over the concatenated interval lists, modelled as the
deduplicated ascending list. CPython iterates small ints by hash-table slot
(hash(x) = x), which is ascending while no slots collide; values at or above
the table size can probe to earlier slots and deviate from ascending order,
permuting the fitted weight values. The judged statements below depend only
on membership in the set, not on its iteration order. -/
def mkSet (l : List ℤ) : List ℤ := sortBy intLeB l.dedup

/-- Exclusion combinations of the excluded intervals, re-sorted by
descending size with Python's stable exclusions.sort(key=len, reverse=True). -/
def sortedExclusions (excludeIvls : List ℤ) : List (List ℤ) :=
  sortBy lenGeB (exclusionCombinations intLeB excludeIvls)

/-- Python get_exclusion_groups for one chord: index of the first exclusion
group none of whose excluded intervals occurs in the chord. -/
def groupOf (exclusions : List (List ℤ)) (ivls : List ℤ) : ℕ :=
  exclusions.findIdx (fun ex => ivls.all (fun ivl => decide (ivl ∉ ex)))

/-- Result of optimise_interval_weights: one padded table when no exclusions
are given, else one padded table per exclusion combination. -/
inductive OptResult where
  | single (ws : List (Option ℚ))
  | multi (lsts : List (List (Option ℚ)))
  deriving DecidableEq

/-- The chords of one exclusion group: the interval lists whose group index
is i (the boolean mask exclusion_groups == i). -/
def groupIntervals (pitchesLst : List (List ℤ)) (excludeIvls : List ℤ)
    (i : ℕ) : List (List ℤ) :=
  (pitchesLst.map get_octave_intervals).filter
    (fun ivls => groupOf (sortedExclusions excludeIvls) ivls == i)

/-- Python optimise_interval_weights. np.concatenate of an empty batch
raises; an unequal ratings length makes the boolean masks raise, modelled as
the up-front batchMismatch in the exclusion branch (the no-exclusion branch
checks inside optimise_weights). The model keeps the batch as a list of
chords; the real np.array(..., dtype=object) of a rectangular batch (every
chord with the same interval count) forms a 2D array whose size and mask
bookkeeping make the exclusion branch raise, so such runs error in Python
where the model may return — the statement proved below is conditional on a
successful run. For each group the regression runs over the chords assigned
to it and the global interval set minus the group's excluded intervals, and
the result is padded to labels 1..12. -/
def optimise_interval_weights (pitchesLst : List (List ℤ)) (ratings : List ℚ)
    (excludeIvls : List ℤ) (aggMethod : String) : Except PyErr OptResult :=
  if pitchesLst.isEmpty then .error .emptyBatch
  else
    let intervalsLst := pitchesLst.map get_octave_intervals
    let intervalSet := mkSet intervalsLst.flatten
    if excludeIvls = [] then
      match optimise_weights intervalsLst ratings intervalSet aggMethod with
      | .error e => .error e
      | .ok ws => .ok (.single (include_missing ws intervalSet labels12))
    else
      if pitchesLst.length ≠ ratings.length then .error .batchMismatch
      else
        let exclusions := sortedExclusions excludeIvls
        let paired := intervalsLst.zip ratings
        match mapExcept (fun iex =>
            match optimise_weights
                ((paired.filter
                  (fun p => groupOf exclusions p.1 == iex.1)).map Prod.fst)
                ((paired.filter
                  (fun p => groupOf exclusions p.1 == iex.1)).map Prod.snd)
                (intervalSet.filter (fun x => decide (x ∉ iex.2)))
                aggMethod with
            | .error e => .error e
            | .ok ws =>
              .ok (include_missing ws
                (intervalSet.filter (fun x => decide (x ∉ iex.2))) labels12))
          exclusions.enum with
        | .error e => .error e
        | .ok tables => .ok (.multi tables)

theorem mapExcept_length (f : α → Except PyErr β) :
    ∀ (l : List α) (ys : List β), mapExcept f l = .ok ys →
      ys.length = l.length := by
  intro l
  induction l with
  | nil => intro ys h; simp only [mapExcept] at h; cases h; rfl
  | cons x xs ih =>
    intro ys h
    simp only [mapExcept] at h
    cases hfx : f x with
    | error e => rw [hfx] at h; cases h
    | ok y =>
      cases hrest : mapExcept f xs with
      | error e => rw [hfx, hrest] at h; cases h
      | ok ys2 =>
        rw [hfx, hrest] at h
        cases h
        simp [ih ys2 hrest]

theorem mapExcept_ok_pos (f : α → Except PyErr β) (d : α) (d2 : β) :
    ∀ (l : List α) (ys : List β), mapExcept f l = .ok ys →
      ∀ j, j < l.length → f (l.getD j d) = .ok (ys.getD j d2) := by
  intro l
  induction l with
  | nil => intro ys _ j hj; simp at hj
  | cons x xs ih =>
    intro ys h j hj
    simp only [mapExcept] at h
    cases hfx : f x with
    | error e => rw [hfx] at h; cases h
    | ok y =>
      cases hrest : mapExcept f xs with
      | error e => rw [hfx, hrest] at h; cases h
      | ok ys2 =>
        rw [hfx, hrest] at h
        cases h
        cases j with
        | zero => simpa using hfx
        | succ k =>
          simp only [List.getD_cons_succ]
          exact ih ys2 hrest k (by simpa using hj)

theorem mapExcept_ok_mem (f : α → Except PyErr β) :
    ∀ (l : List α) (ys : List β), mapExcept f l = .ok ys →
      ∀ y ∈ ys, ∃ x ∈ l, f x = .ok y := by
  intro l
  induction l with
  | nil => intro ys h y hy; simp only [mapExcept] at h; cases h; cases hy
  | cons x xs ih =>
    intro ys h y hy
    simp only [mapExcept] at h
    cases hfx : f x with
    | error e => rw [hfx] at h; cases h
    | ok y2 =>
      cases hrest : mapExcept f xs with
      | error e => rw [hfx, hrest] at h; cases h
      | ok ys2 =>
        rw [hfx, hrest] at h
        cases h
        rcases List.mem_cons.mp hy with rfl | hy2
        · exact ⟨x, List.mem_cons_self x xs, hfx⟩
        · obtain ⟨x2, hx2, hfx2⟩ := ih ys2 hrest y hy2
          exact ⟨x2, List.mem_cons_of_mem x hx2, hfx2⟩

theorem detFuel_zero_row :
    ∀ (n : ℕ) (M : List (List ℚ)), n = M.length →
      ∀ r ∈ M, (∀ x ∈ r, x = 0) → detFuel n M = 0 := by
  intro n
  induction n with
  | zero =>
    intro M hn r hr _
    cases M with
    | nil => cases hr
    | cons s rows => simp at hn
  | succ n ih =>
    intro M hn r hr hz
    cases M with
    | nil => cases hr
    | cons s rows =>
      simp only [detFuel]
      apply List.sum_eq_zero
      intro x hx
      obtain ⟨k, _, hk⟩ := List.mem_map.mp hx
      rcases List.mem_cons.mp hr with rfl | hr2
      · have hsk : r.getD k 0 = 0 := by
          by_cases hkl : k < r.length
          · rw [List.getD_eq_getElem _ _ hkl]
            exact hz _ (List.getElem_mem hkl)
          · rw [List.getD_eq_default _ _ (by omega)]
        rw [← hk, hsk, mul_zero, zero_mul]
      · have hdz : detFuel n (rows.map (fun row => row.eraseIdx k)) = 0 := by
          apply ih (rows.map (fun row => row.eraseIdx k))
            (by simp at hn ⊢; omega) (r.eraseIdx k)
            (List.mem_map_of_mem _ hr2)
          intro x2 hx2
          exact hz x2 ((List.eraseIdx_sublist r k).mem hx2)
        rw [← hk, hdz, mul_zero]

theorem detL_zero_row (M : List (List ℚ)) (r : List ℚ) (hr : r ∈ M)
    (hz : ∀ x ∈ r, x = 0) : detL M = 0 :=
  detFuel_zero_row M.length M rfl r hr hz

theorem matInvL_none_of_zero_col (A : List (List ℚ)) (m j : ℕ) (hj : j < m)
    (hcol : ∀ x ∈ colAt A j, x = 0) : matInvL (gramAtA A m) = none := by
  have hrow : (List.range m).map (fun q => dotQ (colAt A j) (colAt A q)) ∈
      gramAtA A m :=
    List.mem_map_of_mem _ (List.mem_range.mpr hj)
  have hzrow : ∀ x ∈ (List.range m).map
      (fun q => dotQ (colAt A j) (colAt A q)), x = 0 := by
    intro x hx
    obtain ⟨q, _, hq⟩ := List.mem_map.mp hx
    rw [← hq]
    exact dotQ_zero_left _ _ hcol
  have hdet : detL (gramAtA A m) = 0 := detL_zero_row _ _ hrow hzrow
  simp [matInvL, hdet]

theorem optimise_weights_ok (intervalsLst : List (List ℤ)) (ratings : List ℚ)
    (intervalSet : List ℤ) (agg : String) (ws : List ℚ)
    (h : optimise_weights intervalsLst ratings intervalSet agg = .ok ws) :
    ∃ rows, mapExcept (designRow intervalSet agg) intervalsLst = .ok rows ∧
      matInvL (gramAtA rows intervalSet.length) ≠ none := by
  simp only [optimise_weights] at h
  split_ifs at h
  cases hmap : mapExcept (designRow intervalSet agg) intervalsLst with
  | error e => rw [hmap] at h; cases h
  | ok rows =>
    rw [hmap] at h
    have h2 : (match matInvL (gramAtA rows intervalSet.length) with
        | none => Except.error PyErr.singular
        | some B =>
          Except.ok (matVecL B (atVec rows ratings intervalSet.length))) =
        Except.ok ws := h
    cases hinv : matInvL (gramAtA rows intervalSet.length) with
    | none => rw [hinv] at h2; cases h2
    | some B => exact ⟨rows, rfl, by rw [hinv]; simp⟩

theorem getD_map_of_lt (f : α → β) (c : List α) (i : ℕ) (d : β) (d2 : α)
    (hi : i < c.length) : (c.map f).getD i d = f (c.getD i d2) := by
  rw [List.getD_eq_getElem _ _ (by simpa using hi), List.getElem_map,
    List.getD_eq_getElem _ _ hi]

theorem getD_replicate_zero (n i : ℕ) :
    (List.replicate n (0 : ℚ)).getD i 0 = 0 := by
  by_cases hi : i < n
  · rw [List.getD_eq_getElem _ _ (by simpa using hi)]
    simp
  · rw [List.getD_eq_default _ _ (by simpa using hi)]

theorem designRow_zero (intervalSet : List ℤ) (agg : String) (ivls : List ℤ)
    (row : List ℚ) (hrow : designRow intervalSet agg ivls = .ok row)
    (hnd : intervalSet.Nodup) (l : ℤ) (hmemS : l ∈ intervalSet)
    (hl : l ∉ ivls) : row.getD (intervalSet.indexOf l) 0 = 0 := by
  have hidx : intervalSet.indexOf l < intervalSet.length :=
    List.indexOf_lt_length.mpr hmemS
  simp only [designRow] at hrow
  cases hcnt : count ivls intervalSet with
  | none => rw [hcnt] at hrow; cases hrow
  | some c =>
    rw [hcnt] at hrow
    have hcm : count_aux intervalSet ivls
        (List.replicate intervalSet.length 0) = some c := by
      simpa [count] using hcnt
    have hmem : ∀ x ∈ ivls, x ∈ intervalSet :=
      count_aux_mem intervalSet ivls _ c hcm
    have hc2 : c = intervalSet.map (fun it => ivls.count it) :=
      Option.some.inj (hcnt.symm.trans (count_char ivls intervalSet hnd hmem))
    have hclen : c.length = intervalSet.length := by rw [hc2]; simp
    have hcz : c.getD (intervalSet.indexOf l) 0 = 0 := by
      rw [hc2, List.getD_eq_getElem _ _ (by simpa using hidx),
        List.getElem_map, List.getElem_indexOf hidx]
      exact List.count_eq_zero.mpr hl
    have hrow2 : (if agg = "sum" then
        Except.ok (c.map (fun c => (Nat.cast c : ℚ)))
        else if agg = "type" then
          Except.ok ((c.map (fun c => (Nat.cast c : ℚ))).map
            (fun q => q / (ivls.length : ℚ)))
        else Except.ok (List.replicate intervalSet.length (0 : ℚ))) =
        Except.ok row := hrow
    split_ifs at hrow2
    · cases hrow2
      rw [getD_map_of_lt _ _ _ _ 0 (by omega), hcz]
      simp
    · cases hrow2
      rw [getD_map_of_lt _ _ _ _ 0 (by simp; omega),
        getD_map_of_lt _ _ _ _ 0 (by omega), hcz]
      simp
    · cases hrow2
      exact getD_replicate_zero _ _

theorem include_missing_getD (s : List ℤ) :
    ∀ (fullRange : List ℤ) (ws : List ℚ), fullRange.Nodup →
      ∀ l ∈ fullRange,
        ((include_missing ws s fullRange).getD (fullRange.indexOf l)
            (some 0) = none ↔ l ∉ s) := by
  intro fullRange
  induction fullRange with
  | nil => intro ws _ l hl; cases hl
  | cons i rest ih =>
    intro ws hnd l hl
    rcases List.mem_cons.mp hl with rfl | hl2
    · rw [List.indexOf_cons_self]
      by_cases his : l ∈ s
      · simp [include_missing, his]
      · simp [include_missing, his]
    · have hne : l ≠ i := fun he => (List.nodup_cons.mp hnd).1 (he ▸ hl2)
      have hidx : (i :: rest).indexOf l = rest.indexOf l + 1 := by
        rw [List.indexOf_cons_ne _ (Ne.symm hne)]
      rw [hidx]
      by_cases his : i ∈ s
      · simp only [include_missing, if_pos his, List.getD_cons_succ]
        exact ih ws.tail (List.nodup_cons.mp hnd).2 l hl2
      · simp only [include_missing, if_neg his, List.getD_cons_succ]
        exact ih ws (List.nodup_cons.mp hnd).2 l hl2

theorem mem_mkSet (l : List ℤ) (x : ℤ) : x ∈ mkSet l ↔ x ∈ l := by
  rw [mkSet, mem_sortBy, List.mem_dedup]

theorem nodup_mkSet (l : List ℤ) : (mkSet l).Nodup :=
  ((perm_sortBy intLeB l.dedup).nodup_iff).mpr (List.nodup_dedup l)

theorem match_incmiss_ok (ows : Except PyErr (List ℚ)) (S : List ℤ)
    (t : List (Option ℚ))
    (h : (match ows with
      | .error e => .error e
      | .ok ws => .ok (include_missing ws S labels12)) = Except.ok t) :
    ∃ ws, ows = .ok ws ∧ t = include_missing ws S labels12 := by
  cases ows with
  | error e => cases h
  | ok ws => exact ⟨ws, rfl, (Except.ok.inj h).symm⟩

/-- C8: whenever optimise_interval_weights with non-empty excludeIntervals
returns its list of weight tables (one per exclusion combination, in
descending-exclusion order), the i-th table has null exactly at the labels
excluded by the i-th group's signature or absent from that group's own
chords. A label observed globally but missing from the group would give a
zero design-matrix column, a singular normal matrix, and an error instead of
a result, so in every successful run the padded nulls (group signature plus
globally-unobserved labels) coincide with the signature plus the labels the
partition itself never observed. Chords are the data model's pitch sets of
length at least 2 (one pitch would make the "type" rows 0/0 in numpy). -/
theorem optimise_exclusion_nulls (pitchesLst : List (List ℤ))
    (ratings : List ℚ) (excludeIvls : List ℤ) (agg : String)
    (tables : List (List (Option ℚ)))
    (hex : excludeIvls ≠ [])
    (hch : ∀ ch ∈ pitchesLst, 2 ≤ ch.length)
    (hok : optimise_interval_weights pitchesLst ratings excludeIvls agg =
      .ok (.multi tables)) :
    tables.length = (sortedExclusions excludeIvls).length ∧
      ∀ i, i < tables.length → ∀ l ∈ labels12,
        ((tables.getD i []).getD (labels12.indexOf l) (some 0) = none ↔
          (l ∈ (sortedExclusions excludeIvls).getD i [] ∨
            ∀ ivls ∈ groupIntervals pitchesLst excludeIvls i, l ∉ ivls)) := by
  simp only [optimise_interval_weights] at hok
  split_ifs at hok
  cases hmapE : mapExcept (fun iex =>
      match optimise_weights
          ((((pitchesLst.map get_octave_intervals).zip ratings).filter
            (fun p => groupOf (sortedExclusions excludeIvls) p.1 == iex.1)).map
              Prod.fst)
          ((((pitchesLst.map get_octave_intervals).zip ratings).filter
            (fun p => groupOf (sortedExclusions excludeIvls) p.1 == iex.1)).map
              Prod.snd)
          ((mkSet (pitchesLst.map get_octave_intervals).flatten).filter
            (fun x => decide (x ∉ iex.2)))
          agg with
      | .error e => .error e
      | .ok ws =>
        .ok (include_missing ws
          ((mkSet (pitchesLst.map get_octave_intervals).flatten).filter
            (fun x => decide (x ∉ iex.2))) labels12))
    (sortedExclusions excludeIvls).enum with
  | error e => rw [hmapE] at hok; cases hok
  | ok tables2 =>
    rw [hmapE] at hok
    simp only [Except.ok.injEq, OptResult.multi.injEq] at hok
    subst hok
    have hlen : tables2.length = (sortedExclusions excludeIvls).length := by
      rw [mapExcept_length _ _ _ hmapE, List.enum_length]
    refine ⟨hlen, ?_⟩
    intro i hi l hl
    have hile : i < (sortedExclusions excludeIvls).length := by omega
    have hiE : i < (sortedExclusions excludeIvls).enum.length := by
      rw [List.enum_length]; omega
    have hpos := mapExcept_ok_pos _ (0, ([] : List ℤ))
      ([] : List (Option ℚ)) _ tables2 hmapE i (by rw [List.enum_length]; omega)
    have henum : (sortedExclusions excludeIvls).enum.getD i (0, []) =
        (i, (sortedExclusions excludeIvls).getD i []) := by
      rw [List.getD_eq_getElem _ _ hiE, List.getElem_enum,
        List.getD_eq_getElem _ _ hile]
    rw [henum] at hpos
    obtain ⟨ws, hws, htab⟩ := match_incmiss_ok _ _ _ hpos
    rw [htab]
    rw [include_missing_getD _ labels12 ws nodup_labels12 l hl]
    set exs := (sortedExclusions excludeIvls).getD i [] with hexs
    set gset := (mkSet (pitchesLst.map get_octave_intervals).flatten).filter
      (fun x => decide (x ∉ exs)) with hgset
    constructor
    · intro hnot
      by_cases hcase : l ∈ exs
      · exact Or.inl hcase
      · refine Or.inr ?_
        intro ivls hivls hliv
        apply hnot
        rw [hgset, List.mem_filter]
        refine ⟨?_, by simpa using hcase⟩
        rw [mem_mkSet, List.mem_flatten]
        exact ⟨ivls, List.mem_of_mem_filter hivls, hliv⟩
    · intro hr
      rcases hr with hcase | hall
      · intro hmemg
        rw [hgset, List.mem_filter] at hmemg
        have := hmemg.2
        simp at this
        exact this hcase
      · intro hmemg
        obtain ⟨rows, hrows, hinv⟩ :=
          optimise_weights_ok _ _ _ _ _ hws
        apply hinv
        apply matInvL_none_of_zero_col _ _ (gset.indexOf l)
          (List.indexOf_lt_length.mpr hmemg)
        intro x hx
        obtain ⟨row, hrowm, hxr⟩ := List.mem_map.mp hx
        obtain ⟨chord, hchordm, hdr⟩ := mapExcept_ok_mem _ _ _ hrows row hrowm
        obtain ⟨p, hp, hpc⟩ := List.mem_map.mp hchordm
        have hpz := List.mem_filter.mp hp
        have hp1 : p.1 ∈ groupIntervals pitchesLst excludeIvls i := by
          rw [groupIntervals, List.mem_filter]
          exact ⟨(List.of_mem_zip hpz.1).1, by simpa using hpz.2⟩
        have hlp : l ∉ p.1 := hall p.1 hp1
        have hndg : gset.Nodup :=
          List.Nodup.filter _ (nodup_mkSet _)
        rw [← hxr]
        rw [← hpc] at hdr
        exact designRow_zero gset agg p.1 row hdr hndg l hmemg hlp

/-- Weight tables produced by the exclusion-group fit of the single chord
[60, 72] with excluded interval 12: the group excluding 12 has no chords and
no usable labels (all null), the group excluding nothing fits weight 1 for
interval 12. -/
def singleExclusionTables : List (List (Option ℚ)) :=
  [[none, none, none, none, none, none, none, none, none, none, none, none],
   [none, none, none, none, none, none, none, none, none, none, none, some 1]]

set_option maxHeartbeats 1000000 in
theorem optimise_exclusion_nulls_witness :
    (∀ ch ∈ ([[60, 72]] : List (List ℤ)), 2 ≤ ch.length) ∧
      (singleExclusionTables.length = (sortedExclusions [12]).length ∧
        ∀ i, i < singleExclusionTables.length → ∀ l ∈ labels12,
          ((singleExclusionTables.getD i []).getD (labels12.indexOf l)
              (some 0) = none ↔
            (l ∈ (sortedExclusions [12]).getD i [] ∨
              ∀ ivls ∈ groupIntervals [[60, 72]] [12] i, l ∉ ivls))) :=
  ⟨by decide,
    optimise_exclusion_nulls [[60, 72]] [1] [12] "type" singleExclusionTables
      (by decide) (by decide)
      (by
        norm_num [optimise_interval_weights, optimise_weights, mapExcept,
          designRow, include_missing, mkSet, sortedExclusions, groupOf,
          exclusionCombinations, combinations, sortBy, insertSorted, lenGeB,
          listLeB, intLeB, natLeB, get_octave_intervals, pairsOf, count,
          count_aux, incrAt, labels12, dotQ, colAt, gramAtA, atVec, detL,
          detFuel, matInvL, matVecL, singleExclusionTables, List.range_succ,
          List.dedup, List.enum, List.replicate, List.set, List.flatMap,
          List.zip, List.zipWith, List.sum, List.filter, List.findIdx,
          List.all, List.eraseIdx])⟩

end Consonance
